import Mathlib

/-!
# Verification of the native semantic code-search backend

Shallow embedding, in Lean 4, of the Rust core under
`semantic-search/native/src` (`db.rs`, `lib.rs`, `model.rs`,
`search_bench.rs`), together with proofs and refutations of the frozen
claims about it.

Modelling conventions:
* Rust `f32`/`f64` values are modelled as exact rationals (`ℚ`); every
  `f64` value arising in the programs of interest is a finite binary
  rational, and the claims under study are stated up to tolerances that
  exact arithmetic trivially meets.  The one place where an irrational
  arises — the square root computed by `vec_distance_l2` — is modelled
  in `ℝ`.
* SQLite tables are modelled as Lean lists of row structures; a table
  that may not exist yet is an `Option` of such a list.
* The embedding model (tokenizer + transformer forward pass) is opaque
  GPU computation; claims about the plumbing around it quantify over an
  arbitrary function standing for that pipeline.
-/

namespace SemSearch

/-- Squared L2 distance `Σ (q_i - e_i)²` between two vectors, the
quantity written `d` throughout the spec.  Matches the summation
computed by sqlite-vec's `vec_distance_l2` (before its final square
root) and by `f32::l2sq` in `search_bench.rs`. -/
def l2sq (q e : List ℚ) : ℚ :=
  ((q.zip e).map (fun p => (p.1 - p.2) ^ 2)).sum

/-- Squared norm of a vector; `unit q` states that `q` is an (exactly)
unit-norm vector. -/
def normSq (q : List ℚ) : ℚ :=
  (q.map (fun x => x ^ 2)).sum

/-- The SQL expression `vec_distance_l2(embedding, ?)` from
`SearchDB::search` (db.rs): the (non-squared) Euclidean distance
between the stored embedding and the query. -/
noncomputable def vecDistanceL2 (q e : List ℚ) : ℝ :=
  Real.sqrt ((l2sq q e : ℚ) : ℝ)

/-- The score assigned to a returned row in `SearchDB::search`
(db.rs line 303): `score = 1.0 - (dist * dist) / 2.0` where
`dist` is the value of `vec_distance_l2`. -/
noncomputable def searchScore (q e : List ℚ) : ℝ :=
  1 - vecDistanceL2 q e * vecDistanceL2 q e / 2

/-- The vector dimension `D` of the stored embeddings
(`dimensions = 768` in the meta table). -/
def DIM : Nat := 768

theorem l2sq_nonneg (q e : List ℚ) : 0 ≤ l2sq q e := by
  unfold l2sq
  induction q.zip e with
  | nil => simp
  | cons p ps ih =>
      simp only [List.map_cons, List.sum_cons]
      have : (0:ℚ) ≤ (p.1 - p.2) ^ 2 := sq_nonneg _
      linarith

/-- Claim C1: For every stored symbol embedding `e` and query embedding
`q` that are unit vectors of length `D = 768`, the score computed by
`SearchDB::search` for that row equals `1 - (Σ (q_i - e_i)²) / 2`,
i.e. one minus half the squared L2 distance between `q` and `e`.  In
the exact-arithmetic model the identity is exact, hence within the
claimed `1e-6`. -/
theorem search_score_eq_one_sub_half_l2sq
    (q e : List ℚ)
    (hq : q.length = DIM) (he : e.length = DIM)
    (hqu : normSq q = 1) (heu : normSq e = 1) :
    searchScore q e = 1 - ((l2sq q e : ℚ) : ℝ) / 2 := by
  unfold searchScore vecDistanceL2
  have h0 : (0:ℝ) ≤ ((l2sq q e : ℚ) : ℝ) := by
    exact_mod_cast l2sq_nonneg q e
  rw [Real.mul_self_sqrt h0]

/-- A concrete 768-dimensional exact unit vector: `(1, 0, …, 0)`. -/
def e0 : List ℚ := 1 :: List.replicate 767 0

theorem normSq_cons (x : ℚ) (l : List ℚ) : normSq (x :: l) = x ^ 2 + normSq l := by
  simp [normSq]

theorem normSq_replicate_zero (n : Nat) : normSq (List.replicate n 0) = 0 := by
  induction n with
  | zero => simp [normSq]
  | succ m ih =>
      rw [List.replicate_succ, normSq_cons, ih]
      norm_num

theorem normSq_e0 : normSq e0 = 1 := by
  unfold e0
  rw [normSq_cons, normSq_replicate_zero]
  norm_num

theorem length_e0 : e0.length = DIM := by
  unfold e0 DIM
  rw [List.length_cons, List.length_replicate]

/-- Witness for C1 at the concrete unit vectors `q = e = e0`. -/
theorem search_score_eq_one_sub_half_l2sq_witness :
    e0.length = DIM ∧ normSq e0 = 1 ∧
      searchScore e0 e0 = 1 - ((l2sq e0 e0 : ℚ) : ℝ) / 2 :=
  ⟨length_e0, normSq_e0,
    search_score_eq_one_sub_half_l2sq e0 e0 length_e0 length_e0 normSq_e0 normSq_e0⟩

/-! ## Embedding service (`embed_internal`, lib.rs)

The tokenizer and the transformer forward pass run on the GPU; the
claims about `embed_internal` concern only the string plumbing around
that computation, so the per-chunk pipeline
(`tokenize_batch` + `forward` + `mean_pool_normalize` + `eval`) is
modelled by an arbitrary function `process` from a chunk of strings to
a list of embedding rows. -/

/-- The literal constant `QUERY_PREFIX` from lib.rs line 21. -/
def queryPrefixStr : String := "Represent this query for searching relevant code: "

/-- Rust `slice::chunks n`: splits a list into consecutive chunks of `n`
elements, the last chunk possibly shorter; no chunks for an empty
input. -/
def chunksOf (n : Nat) (l : List α) : List (List α) :=
  if h : n = 0 ∨ l.isEmpty then []
  else l.take n :: chunksOf n (l.drop n)
termination_by l.length
decreasing_by
  push_neg at h
  obtain ⟨hn, hl⟩ := h
  have hlen : 0 < l.length := by
    cases l with
    | nil => simp at hl
    | cons x xs => simp
  simp only [List.length_drop]
  exact Nat.sub_lt hlen (Nat.pos_of_ne_zero hn)

/-- Model of `embed_internal` (lib.rs lines 120–161): in query mode every input
string is prefixed with `QUERY_PREFIX` (`format!("{}{}", QUERY_PREFIX, t)`);
in document mode the strings pass through unchanged; then the strings are
processed in sub-batches of 32 and the resulting rows concatenated. -/
def embedInternal (process : List String → List (List ℚ))
    (texts : List String) (isQuery : Bool) : List (List ℚ) :=
  let prefixed := if isQuery then texts.map (fun t => queryPrefixStr ++ t) else texts
  ((chunksOf 32 prefixed).map process).flatten

/-- Claim C7: For every input string `x` and fixed model state (an
arbitrary per-chunk pipeline `process`), embedding `x` in query mode
produces exactly the same vector list as embedding
`QUERY_PREFIX ++ x` in document mode; and document mode passes each
input string to the pipeline unchanged. -/
theorem embed_query_eq_embed_prefixed_doc
    (process : List String → List (List ℚ)) (x : String) :
    embedInternal process [x] true =
      embedInternal process [queryPrefixStr ++ x] false ∧
    ∀ texts : List String,
      embedInternal process texts false =
        ((chunksOf 32 texts).map process).flatten :=
  ⟨rfl, fun _ => rfl⟩

/-! ## Vector store schema lifecycle (`SearchDB::open` / `init_schema`, db.rs)

SQLite tables are modelled as optional lists of rows (`none` = the
table does not exist).  `SearchDB::open` and `init_schema` are modelled
as a state transformer that also emits the list of effectful steps it
performs (pragma applications, table drops/creates, meta writes), in
program order. -/

/-- A row of the `files` table. -/
structure FileRow where
  path : String
  hash : String
  language : Option String
  symbolCount : Option Int
  indexedAt : Int
deriving DecidableEq, Repr

/-- A row of the `symbols` table (schema version 3, db.rs lines
112–123): an implicit-rowid table whose declared columns carry no
uniqueness constraint; the implicit `id INTEGER PRIMARY KEY` is not
part of the row value. -/
structure StoredSymbol where
  embedding : List ℚ
  file_path : String
  name : String
  kind : String
  language : String
  line : Int
  end_line : Option Int
  signature : Option String
  embedding_text : String
deriving DecidableEq, Repr

/-- The on-disk database file: each table is `none` when absent.
`vecSymbols` stands for the legacy `vec_symbols` table, which
`init_schema` drops but never creates. -/
structure DbFile where
  meta : Option (List (String × String))
  files : Option (List FileRow)
  symbols : Option (List StoredSymbol)
  vecSymbols : Option Unit
deriving DecidableEq, Repr

/-- The query `SELECT value FROM meta WHERE key = ?` on the key/value table
(`key` is its primary key, so the first match is the row). -/
def alookup {β : Type} : List (String × β) → String → Option β
  | [], _ => none
  | (k', v) :: rest, k => if k' = k then some v else alookup rest k

/-- The statement `INSERT OR REPLACE` into the `meta` table: replace the value of an
existing key in place, otherwise append the new pair. -/
def aupsert : List (String × String) → String → String → List (String × String)
  | [], k, v => [(k, v)]
  | (k', v') :: rest, k, v =>
      if k' = k then (k, v) :: rest else (k', v') :: aupsert rest k v

/-- Rust `str::parse::<i32>`: an optional sign followed by one or more
decimal digits, rejecting values outside the `i32` range. -/
def digitsValAux : List Char → Nat → Option Nat
  | [], acc => some acc
  | c :: cs, acc =>
      if c.isDigit then digitsValAux cs (acc * 10 + (c.toNat - 48)) else none

def digitsVal (cs : List Char) : Option Nat :=
  if cs.isEmpty then none else digitsValAux cs 0

def parseSigned (cs : List Char) (sign : Int) : Option Int :=
  (digitsVal cs).bind fun n =>
    let v : Int := sign * n
    if -(2 ^ 31) ≤ v ∧ v ≤ 2 ^ 31 - 1 then some v else none

def parseI32 (s : String) : Option Int :=
  match s.toList with
  | '+' :: cs => parseSigned cs 1
  | '-' :: cs => parseSigned cs (-1)
  | cs => parseSigned cs 1

/-- The expression `v.parse::<i32>().unwrap_or(0)` from `init_schema` (db.rs line 84). -/
def parseI32OrZero (s : String) : Int := (parseI32 s).getD 0

/-- The compiled constant `SCHEMA_VERSION` (db.rs line 9). -/
def SCHEMA_VERSION : Int := 3

/-- An effectful step taken while opening the store. -/
inductive DbAction where
  | pragmaSet (name value : String)
  | dropTables
  | createTables
  | writeMeta (key value : String)
deriving DecidableEq, Repr

def isPragmaSet : DbAction → Bool
  | .pragmaSet _ _ => true
  | _ => false

/-- The three `INSERT OR REPLACE INTO meta` statements of
`init_schema` (db.rs lines 130–141), in program order. -/
def metaWrites : List DbAction :=
  [.writeMeta "schema_version" "3", .writeMeta "model" "CodeRankEmbed",
   .writeMeta "dimensions" "768"]

/-- The batch `DROP TABLE IF EXISTS files / symbols / vec_symbols / meta`. -/
def droppedState : DbFile := ⟨none, none, none, none⟩

/-- The batch `CREATE TABLE IF NOT EXISTS meta / files / symbols`: creates each
of the three tables when absent, leaving existing contents intact
(`vec_symbols` is never created). -/
def createTablesState (db : DbFile) : DbFile :=
  { db with
    meta := some (db.meta.getD [])
    files := some (db.files.getD [])
    symbols := some (db.symbols.getD []) }

/-- The three meta upserts applied to the meta table contents. -/
def writeMeta3 (m : List (String × String)) : List (String × String) :=
  aupsert (aupsert (aupsert m "schema_version" "3") "model" "CodeRankEmbed")
    "dimensions" "768"

def createAndWriteMeta (db : DbFile) : DbFile :=
  let c := createTablesState db
  { c with meta := some (writeMeta3 (c.meta.getD [])) }

/-- Model of `init_schema` (db.rs lines 63–144) as a state transformer that also
returns the steps performed: if the `meta` table exists and its
`schema_version` parses to the compiled constant, return immediately;
if it exists with a missing or different version, drop all four tables
and recreate; if `meta` is absent, create the tables (without
dropping).  In the latter two cases the three meta keys are written. -/
def initSchemaRun (db : DbFile) : DbFile × List DbAction :=
  match db.meta with
  | some m =>
      if (match alookup m "schema_version" with
          | some v => parseI32OrZero v == SCHEMA_VERSION
          | none => false) then
        (db, [])
      else
        (createAndWriteMeta droppedState,
         .dropTables :: .createTables :: metaWrites)
  | none => (createAndWriteMeta db, .createTables :: metaWrites)

/-- Model of `SearchDB::open` (db.rs lines 43–61): applies
`journal_mode = WAL` — the only connection pragma it sets — and then
runs `init_schema`.  The model is total: none of the claims concerns
I/O failure of these statements. -/
def openRun (db : DbFile) : DbFile × List DbAction :=
  let r := initSchemaRun db
  (r.1, .pragmaSet "journal_mode" "WAL" :: r.2)

/-- The connection settings applied by the *benchmark*'s `open_db`
(search_bench.rs lines 9–15): `mmap_size = 3_000_000_000`,
`temp_store = 2` (MEMORY) and `cache_size = -64000`. -/
def benchConnPragmas : List DbAction :=
  [.pragmaSet "mmap_size" "3000000000", .pragmaSet "temp_store" "2",
   .pragmaSet "cache_size" "-64000"]

/-- A concrete `files` row used in witnesses. -/
def fileA : FileRow := ⟨"a.go", "h0", some "go", some 1, 0⟩

/-- A concrete `symbols` row used in witnesses. -/
def symA : StoredSymbol :=
  ⟨[1], "a.go", "RL", "function", "go", 1, none, none, "rate limiting middleware"⟩

/-- Claim C4: Opening a pre-existing database whose `meta` table has a
`schema_version` that does not parse to the compiled constant succeeds
(the model of `open` is total — no error path is taken) and leaves the
`symbols` and `files` tables existing but empty, with
`meta.schema_version` updated to the compiled constant. -/
theorem open_migrates_on_version_mismatch
    (db : DbFile) (m : List (String × String)) (v : String)
    (hm : db.meta = some m)
    (hv : alookup m "schema_version" = some v)
    (hne : parseI32OrZero v ≠ SCHEMA_VERSION) :
    ((openRun db).1).symbols = some [] ∧
    ((openRun db).1).files = some [] ∧
    ∃ m', ((openRun db).1).meta = some m' ∧
      alookup m' "schema_version" = some "3" := by
  have hbeq : (parseI32OrZero v == SCHEMA_VERSION) = false := by
    simpa using hne
  simp only [openRun, initSchemaRun, hm, hv, hbeq, Bool.false_eq_true, if_false]
  refine ⟨rfl, rfl, writeMeta3 [], rfl, rfl⟩

/-- Witness for C4: a version-2 database holding a file row and a
symbol row is wiped by `open`. -/
theorem open_migrates_on_version_mismatch_witness :
    parseI32OrZero "2" ≠ SCHEMA_VERSION ∧
    (((openRun ⟨some [("schema_version", "2")], some [fileA], some [symA], none⟩).1).symbols
        = some [] ∧
     ((openRun ⟨some [("schema_version", "2")], some [fileA], some [symA], none⟩).1).files
        = some [] ∧
     ∃ m', ((openRun ⟨some [("schema_version", "2")], some [fileA], some [symA], none⟩).1).meta
        = some m' ∧ alookup m' "schema_version" = some "3") :=
  ⟨by decide,
   open_migrates_on_version_mismatch _ _ "2" rfl rfl (by decide)⟩

/-- C5 as stated by the spec: every store open applies, in order,
`journal_mode = WAL`, `mmap_size = 3_000_000_000`, `temp_store = MEMORY`
and `cache_size = -64000` before any schema work. -/
def ClaimC5 : Prop :=
  ∀ db : DbFile,
    [DbAction.pragmaSet "journal_mode" "WAL",
     DbAction.pragmaSet "mmap_size" "3000000000",
     DbAction.pragmaSet "temp_store" "2",
     DbAction.pragmaSet "cache_size" "-64000"].Sublist
      (((openRun db).2).takeWhile isPragmaSet)

/-- Claim C5, counterexample: On a fresh database, `SearchDB::open` sets
only `journal_mode = WAL` before `init_schema` runs; the
mmap/temp_store/cache_size settings never appear in its step list
(they are applied only by the benchmark's `open_db`). -/
theorem store_open_pragmas_claim_false : ¬ ClaimC5 := by
  intro h
  exact absurd (h ⟨none, none, none, none⟩) (by decide)

/-- Claim C5, amended: Every store open applies exactly one connection
setting — `journal_mode = WAL` — before any schema work; the settings
`mmap_size = 3_000_000_000`, `temp_store = MEMORY (2)` and
`cache_size = -64000` are applied (in that order) only by the
benchmark's connection setup in search_bench.rs. -/
theorem store_open_applies_only_wal (db : DbFile) :
    (∃ rest, (openRun db).2 = DbAction.pragmaSet "journal_mode" "WAL" :: rest ∧
      ∀ a ∈ rest, isPragmaSet a = false) ∧
    benchConnPragmas =
      [.pragmaSet "mmap_size" "3000000000", .pragmaSet "temp_store" "2",
       .pragmaSet "cache_size" "-64000"] := by
  refine ⟨⟨(initSchemaRun db).2, rfl, ?_⟩, rfl⟩
  intro a ha
  unfold initSchemaRun at ha
  rcases hm : db.meta with _ | m <;> simp only [hm] at ha
  · fin_cases ha <;> rfl
  · split at ha
    · simp at ha
    · fin_cases ha <;> rfl

/-- Witness for C5 amended, at the fresh (all-tables-absent) database. -/
theorem store_open_applies_only_wal_witness :
    ∃ rest, (openRun ⟨none, none, none, none⟩).2 =
      DbAction.pragmaSet "journal_mode" "WAL" :: rest ∧
      ∀ a ∈ rest, isPragmaSet a = false :=
  (store_open_applies_only_wal ⟨none, none, none, none⟩).1

/-- Does the stored `schema_version` parse to the compiled constant
(the early-return condition of `init_schema`)? -/
def versionMatches (db : DbFile) : Bool :=
  match db.meta with
  | some m =>
      match alookup m "schema_version" with
      | some v => parseI32OrZero v == SCHEMA_VERSION
      | none => false
  | none => false

/-- C6 as stated by the spec: after every successful open — including
one where the stored `schema_version` already equals the compiled
constant — the meta table contains the keys `schema_version` (equal to
the compiled constant), `model` and `dimensions`, freshly written on
that open. -/
def ClaimC6 : Prop :=
  ∀ db : DbFile,
    (∃ m, ((openRun db).1).meta = some m ∧
       alookup m "schema_version" = some "3" ∧
       alookup m "model" = some "CodeRankEmbed" ∧
       alookup m "dimensions" = some "768") ∧
    DbAction.writeMeta "schema_version" "3" ∈ (openRun db).2 ∧
    DbAction.writeMeta "model" "CodeRankEmbed" ∈ (openRun db).2 ∧
    DbAction.writeMeta "dimensions" "768" ∈ (openRun db).2

/-- Claim C6, counterexample: Opening a database whose meta table holds
only `schema_version = "3"` takes `init_schema`'s early return: nothing
is written, and afterwards the meta table still lacks the `model` and
`dimensions` keys.  Meta keys are *not* written unconditionally on
open. -/
theorem meta_written_unconditionally_false : ¬ ClaimC6 := by
  intro h
  exact absurd (h ⟨some [("schema_version", "3")], some [], some [], none⟩)
    (by decide)

/-- Claim C6, amended: Meta keys are written on open only when the meta
table is absent or the stored `schema_version` does not parse to the
compiled constant; when it matches, `open` leaves the database exactly
as it was and performs no write at all.  In the writing case the meta
table afterwards maps `schema_version` to `"3"`, `model` to
`"CodeRankEmbed"` and `dimensions` to `"768"`. -/
theorem meta_writes_on_open_characterization (db : DbFile) :
    (versionMatches db = true →
       (openRun db).1 = db ∧
       ∀ k v, DbAction.writeMeta k v ∉ (openRun db).2) ∧
    (versionMatches db = false →
       (∃ m, ((openRun db).1).meta = some m ∧
          alookup m "schema_version" = some "3" ∧
          alookup m "model" = some "CodeRankEmbed" ∧
          alookup m "dimensions" = some "768") ∧
       DbAction.writeMeta "schema_version" "3" ∈ (openRun db).2) := by
  constructor
  · intro hv
    unfold versionMatches at hv
    unfold openRun initSchemaRun
    rcases hm : db.meta with _ | m <;> simp only [hm] at hv ⊢
    · exact absurd hv (by simp)
    · rw [if_pos hv]
      refine ⟨rfl, ?_⟩
      intro k v hmem
      simp [DbAction.pragmaSet] at hmem
  · intro hv
    unfold versionMatches at hv
    unfold openRun initSchemaRun
    rcases hm : db.meta with _ | m <;> simp only [hm] at hv ⊢
    · exact ⟨⟨writeMeta3 [],
        by simp [createAndWriteMeta, createTablesState, hm], rfl, rfl, rfl⟩,
        by simp [metaWrites]⟩
    · rw [if_neg (by simp [hv])]
      exact ⟨⟨writeMeta3 [], rfl, rfl, rfl, rfl⟩, by simp [metaWrites]⟩

/-- Witness for C6 amended: the early-return case at a version-3
database (nothing written), and the writing case at a fresh database. -/
theorem meta_writes_on_open_characterization_witness :
    (versionMatches ⟨some [("schema_version", "3")], some [], some [], none⟩ = true ∧
     (openRun ⟨some [("schema_version", "3")], some [], some [], none⟩).1 =
       ⟨some [("schema_version", "3")], some [], some [], none⟩) ∧
    (versionMatches ⟨none, none, none, none⟩ = false ∧
     DbAction.writeMeta "schema_version" "3" ∈ (openRun ⟨none, none, none, none⟩).2) :=
  ⟨⟨by decide,
    ((meta_writes_on_open_characterization _).1 (by decide)).1⟩,
   ⟨by decide,
    ((meta_writes_on_open_characterization _).2 (by decide)).2⟩⟩

/-! ## Facade-level symbol ingest (`index_symbols`, lib.rs)

`index_symbols` is modelled as a function of
* the embedding pipeline (`embed_internal` in document mode), an
  arbitrary fallible function `embed`,
* a per-row insert oracle `insErr` standing for SQLite-level failure of
  one prepared `INSERT` (returning the error message, if any), and
* the facade's database slot `Option DbData` (`None` = `open_db` has
  not been called).

Errors are the human-readable message strings `napi::Error` carries.
A transaction that is dropped before `commit` rolls back, so on any
error the returned state is the pre-call state. -/

/-- The opened database as the facade sees it (both tables exist). -/
structure DbData where
  symbols : List StoredSymbol
  files : List FileRow
deriving DecidableEq, Repr

/-- One input element of `index_symbols` (the napi `SymbolInput`). -/
structure SymbolInput where
  embedding_text : String
  file_path : String
  name : String
  kind : String
  language : String
  line : Int
  end_line : Option Int
  signature : Option String
deriving DecidableEq, Repr

/-- The row inserted for one symbol and its embedding (lib.rs lines
315–327): column order aside, the stored row carries the embedding and
the symbol's metadata verbatim. -/
def mkRow (s : SymbolInput) (emb : List ℚ) : StoredSymbol :=
  ⟨emb, s.file_path, s.name, s.kind, s.language, s.line, s.end_line,
   s.signature, s.embedding_text⟩

/-- The error message of `get_db` (lib.rs lines 165–170). -/
def notOpenedMsg : String := "DB not opened. Call open_db() first."

/-- The transaction body: execute the prepared `INSERT` once per row;
the first failing row aborts with its error. -/
def runInserts (insErr : StoredSymbol → Option String) :
    List StoredSymbol → Except String Unit
  | [] => .ok ()
  | r :: rs =>
      match insErr r with
      | some e => .error ("DB insert error: " ++ e)
      | none => runInserts insErr rs

/-- Model of `index_symbols` (lib.rs lines 297–334): empty batches return `Ok`
immediately; otherwise the `embedding_text`s are embedded first, then
`get_db` is consulted, then one transaction inserts one row per
`(symbol, embedding)` pair of `symbols.zip(embeddings)` and commits.
The returned pair is (call result, database state after the call). -/
def indexSymbols (embed : List String → Except String (List (List ℚ)))
    (insErr : StoredSymbol → Option String)
    (st : Option DbData) (batch : List SymbolInput) :
    Except String Unit × Option DbData :=
  if batch.isEmpty then (.ok (), st)
  else
    match embed (batch.map (·.embedding_text)) with
    | .error e => (.error e, st)
    | .ok embs =>
        match st with
        | none => (.error notOpenedMsg, st)
        | some db =>
            let rows := (batch.zip embs).map fun p => mkRow p.1 p.2
            match runInserts insErr rows with
            | .error e => (.error e, st)
            | .ok () => (.ok (), some { db with symbols := db.symbols ++ rows })

/-- Model of `delete_files` (lib.rs lines 253–268): for each path, delete the
matching `symbols` rows and the `files` row, in one transaction. -/
def deleteFilesStep (db : DbData) (path : String) : DbData :=
  { symbols := db.symbols.filter fun r => r.file_path ≠ path
    files := db.files.filter fun f => f.path ≠ path }

def deleteFiles (st : Option DbData) (paths : List String) :
    Except String Unit × Option DbData :=
  match st with
  | none => (.error notOpenedMsg, none)
  | some db => (.ok (), some (paths.foldl deleteFilesStep db))

/-- The database states reachable through the facade within one process
lifetime: no store, a freshly opened store (`open_db` on a new path:
`init_schema` creates empty tables), `close_db`, and any outcome of
`index_symbols` (under any embedding pipeline and insert oracle) or
`delete_files`.  `upsert_files` is omitted: it never touches the
`symbols` table. -/
inductive Reachable : Option DbData → Prop where
  | start : Reachable none
  | openDb {s : Option DbData} : Reachable s → Reachable (some ⟨[], []⟩)
  | closeDb {s : Option DbData} : Reachable s → Reachable none
  | index {s s' : Option DbData} (embed insErr batch res) :
      Reachable s → indexSymbols embed insErr s batch = (res, s') → Reachable s'
  | delete {s s' : Option DbData} (paths res) :
      Reachable s → deleteFiles s paths = (res, s') → Reachable s'

/-- C3 as stated by the spec: in every reachable database state no two
`symbols` rows share both `file_path` and `line`. -/
def ClaimC3 : Prop :=
  ∀ s, Reachable s → ∀ db, s = some db →
    db.symbols.Pairwise fun a b => ¬(a.file_path = b.file_path ∧ a.line = b.line)

/-- A successful embedding pipeline returning `[1]` for every text;
used in counterexamples and witnesses. -/
def embedOnes : List String → Except String (List (List ℚ)) :=
  fun ts => .ok (ts.map fun _ => [1])

/-- The no-failure insert oracle. -/
def noInsErr : StoredSymbol → Option String := fun _ => none

/-- A concrete `index_symbols` input element. -/
def symInA : SymbolInput :=
  ⟨"rate limiting middleware", "a.go", "RL", "function", "go", 1, none, none⟩

/-- Claim C3, counterexample: The `symbols` table of schema version 3 has
the implicit rowid as its only primary key and `index_symbols` never
deletes prior rows, so indexing a batch that contains the same
`(file_path, line)` twice yields a reachable state with two rows
sharing both `file_path` and `line`. -/
theorem symbols_unique_per_file_line_false : ¬ ClaimC3 := by
  intro h
  have hstep :
      indexSymbols embedOnes noInsErr (some ⟨[], []⟩) [symInA, symInA] =
        (.ok (), some ⟨[mkRow symInA [1], mkRow symInA [1]], []⟩) := rfl
  have hreach := Reachable.index embedOnes noInsErr [symInA, symInA] (.ok ())
    (Reachable.openDb Reachable.start) hstep
  have hpw := h _ hreach _ rfl
  have := (List.pairwise_cons.mp hpw).1 (mkRow symInA [1]) (by simp)
  exact this ⟨rfl, rfl⟩

/-- Claim C3, amended: The `symbols` table enforces no uniqueness on
`(file_path, line)`: a successful `index_symbols` call appends exactly
one row per batch element — each carrying that element's `file_path`
and `line` — with no deduplication and no deletion of prior rows, so a
file can have several symbol rows on the same start line. -/
theorem index_symbols_appends_rows
    (embed : List String → Except String (List (List ℚ)))
    (insErr : StoredSymbol → Option String)
    (db : DbData) (batch : List SymbolInput) (embs : List (List ℚ))
    (hemb : embed (batch.map (·.embedding_text)) = .ok embs)
    (hins : runInserts insErr ((batch.zip embs).map fun p => mkRow p.1 p.2) = .ok ()) :
    indexSymbols embed insErr (some db) batch =
      (.ok (), some { db with
        symbols := db.symbols ++ (batch.zip embs).map fun p => mkRow p.1 p.2 }) ∧
    ∀ s emb, (mkRow s emb).file_path = s.file_path ∧ (mkRow s emb).line = s.line := by
  refine ⟨?_, fun s emb => ⟨rfl, rfl⟩⟩
  unfold indexSymbols
  rcases hb : batch with _ | ⟨b, bs⟩
  · subst hb
    simp
  · rw [← hb]
    have hne : batch.isEmpty = false := by rw [hb]; rfl
    rw [hne]
    simp only [Bool.false_eq_true, if_false, hemb, hins]

/-- Witness for C3 amended: the duplicate batch from the counterexample
is appended wholesale. -/
theorem index_symbols_appends_rows_witness :
    indexSymbols embedOnes noInsErr (some ⟨[], []⟩) [symInA, symInA] =
      (.ok (), some ⟨[mkRow symInA [1], mkRow symInA [1]], []⟩) :=
  (index_symbols_appends_rows embedOnes noInsErr ⟨[], []⟩ [symInA, symInA]
    [[1], [1]] rfl rfl).1

/-- Claim C9: `index_symbols` is atomic: provided the embedding pipeline
returns one vector per input text (as `embed_internal` does), every
call either succeeds with exactly the batch's rows — one per batch
element — appended and committed, or returns an error and leaves the
database state exactly as it was before the call. -/
theorem index_symbols_atomic
    (embed : List String → Except String (List (List ℚ)))
    (insErr : StoredSymbol → Option String)
    (db : DbData) (batch : List SymbolInput)
    (hlen : ∀ ts vs, embed ts = .ok vs → vs.length = ts.length) :
    (∃ vecs : List (List ℚ), vecs.length = batch.length ∧
       ((batch.zip vecs).map fun p => mkRow p.1 p.2).length = batch.length ∧
       indexSymbols embed insErr (some db) batch =
         (.ok (), some { db with
           symbols := db.symbols ++ (batch.zip vecs).map fun p => mkRow p.1 p.2 })) ∨
    (∃ e, indexSymbols embed insErr (some db) batch = (.error e, some db)) := by
  rcases hb : batch with _ | ⟨b, bs⟩
  · left
    exact ⟨[], rfl, rfl, by simp [indexSymbols]⟩
  · rw [← hb]
    have hne : batch.isEmpty = false := by rw [hb]; rfl
    rcases hemb : embed (batch.map (·.embedding_text)) with e | embs
    · right
      refine ⟨e, ?_⟩
      unfold indexSymbols
      rw [hne]
      simp only [Bool.false_eq_true, if_false, hemb]
    · have hle : embs.length = batch.length := by
        have := hlen _ _ hemb
        simpa using this
      rcases hins : runInserts insErr ((batch.zip embs).map fun p => mkRow p.1 p.2)
        with e | u
      · right
        refine ⟨e, ?_⟩
        unfold indexSymbols
        rw [hne]
        simp only [Bool.false_eq_true, if_false, hemb, hins]
      · left
        refine ⟨embs, hle, ?_, ?_⟩
        · rw [List.length_map, List.length_zip, hle, Nat.min_self]
        · unfold indexSymbols
          rw [hne]
          simp only [Bool.false_eq_true, if_false, hemb, hins]

/-- Witness for C9: the success branch at a concrete one-element batch
under the length-preserving pipeline `embedOnes`. -/
theorem index_symbols_atomic_witness :
    (∀ ts vs, embedOnes ts = .ok vs → vs.length = ts.length) ∧
    ((∃ vecs : List (List ℚ), vecs.length = [symInA].length ∧
       (([symInA].zip vecs).map fun p => mkRow p.1 p.2).length = [symInA].length ∧
       indexSymbols embedOnes noInsErr (some ⟨[], []⟩) [symInA] =
         (.ok (), some { (⟨[], []⟩ : DbData) with
           symbols := ([] : List StoredSymbol) ++ ([symInA].zip vecs).map fun p => mkRow p.1 p.2 })) ∨
    (∃ e, indexSymbols embedOnes noInsErr (some ⟨[], []⟩) [symInA] = (.error e, some ⟨[], []⟩))) := by
  have hlen : ∀ ts vs, embedOnes ts = .ok vs → vs.length = ts.length := by
    intro ts vs h
    simp only [embedOnes, Except.ok.injEq] at h
    rw [← h, List.length_map]
  exact ⟨hlen, index_symbols_atomic embedOnes noInsErr ⟨[], []⟩ [symInA] hlen⟩

/-- Claim C10: An empty `index_symbols` batch returns success without
running the embedding pipeline (the result holds for *every* `embed`,
including one that always fails) and without touching the database
slot — in particular it succeeds when no database is open.  A
non-empty batch in the no-database state fails with the not-opened
error (provided the embedding itself, which runs first, succeeds). -/
theorem index_symbols_empty_ok_nonempty_not_opened
    (embed : List String → Except String (List (List ℚ)))
    (insErr : StoredSymbol → Option String) :
    (∀ st, indexSymbols embed insErr st [] = (.ok (), st)) ∧
    (∀ batch : List SymbolInput, batch ≠ [] →
       (∃ vs, embed (batch.map (·.embedding_text)) = .ok vs) →
       indexSymbols embed insErr none batch = (.error notOpenedMsg, none)) := by
  constructor
  · intro st
    simp [indexSymbols]
  · intro batch hne ⟨vs, hemb⟩
    unfold indexSymbols
    have hb : batch.isEmpty = false := by
      rcases batch with _ | ⟨b, bs⟩
      · exact absurd rfl hne
      · rfl
    rw [hb]
    simp only [Bool.false_eq_true, if_false, hemb]

/-- Witness for C10: an always-failing pipeline still makes the empty
batch succeed with no database open, and the not-opened error shows up
for a concrete non-empty batch under `embedOnes`. -/
theorem index_symbols_empty_ok_nonempty_not_opened_witness :
    indexSymbols (fun _ => .error "Forward pass failed") noInsErr none [] =
      (.ok (), none) ∧
    indexSymbols embedOnes noInsErr none [symInA] = (.error notOpenedMsg, none) :=
  ⟨(index_symbols_empty_ok_nonempty_not_opened
      (fun _ => .error "Forward pass failed") noInsErr).1 none,
   (index_symbols_empty_ok_nonempty_not_opened embedOnes noInsErr).2 [symInA]
     (by simp) ⟨[[1]], rfl⟩⟩

/-! ## Multi-query fusion (`search`, lib.rs lines 342–411)

The fusion layer consumes the per-query results of `SearchDB::search`
(already carrying `f64` scores, modelled as exact rationals) and is
parametric in the scan itself: `scan q k` stands for
`db.search(q, k, filters…)` with the filters fixed.  The `HashMap` of
best-per-key results is modelled as an association list in insertion
order, and Rust's stable `sort_by` on descending score as a stable
insertion sort. -/

/-- A per-query search result as the fusion layer sees it
(`db::SearchResult` minus the embedding). -/
structure SearchHit where
  file_path : String
  name : String
  kind : String
  language : String
  line : Int
  end_line : Option Int
  signature : Option String
  score : ℚ
deriving DecidableEq, Repr

/-- The composite dedup key `format!("{}:{}:{}", file_path, line, name)`
(lib.rs line 381). -/
def hitKey (r : SearchHit) : String :=
  r.file_path ++ ":" ++ toString r.line ++ ":" ++ r.name

/-- Replace the value stored under an existing key, keeping position. -/
def replaceVal {β : Type} : List (String × β) → String → β → List (String × β)
  | [], _, _ => []
  | (k', v') :: rest, k, v =>
      if k' = k then (k, v) :: rest else (k', v') :: replaceVal rest k v

/-- One step of the merge loop (lib.rs lines 380–386): keep the new
result only when its score is strictly greater than the stored one
(`r.score > e.score`), i.e. keep the earliest result on ties; new keys
are appended in insertion order. -/
def upsertBest (m : List (String × SearchHit)) (r : SearchHit) :
    List (String × SearchHit) :=
  match alookup m (hitKey r) with
  | none => m ++ [(hitKey r, r)]
  | some e => if e.score < r.score then replaceVal m (hitKey r) r else m

/-- Stable insertion (descending by score) modelling Rust's stable
`sort_by(|a, b| b.score.partial_cmp(&a.score))`: a new element goes
after every element with a greater-or-equal score. -/
def sortInsDesc (r : SearchHit) : List SearchHit → List SearchHit
  | [] => [r]
  | y :: ys => if r.score ≤ y.score then y :: sortInsDesc r ys else r :: y :: ys

def sortDesc (l : List SearchHit) : List SearchHit :=
  l.foldl (fun acc r => sortInsDesc r acc) []

/-- The per-query scan depth (lib.rs lines 360–364):
`(top_k as f64 * 1.5).ceil() as i32` when more than one query — exact
in `f64` for any `i32`, hence `⌈3k/2⌉` — and `top_k` otherwise. -/
def perQueryK (numQueries topK : Nat) : Nat :=
  if 1 < numQueries then (⌈(3 : ℚ) / 2 * (topK : ℚ)⌉).toNat else topK

/-- Model of `search` (lib.rs lines 342–411): empty query list short-circuits to
no results; otherwise every query is scanned at depth `perQueryK`, the
results are merged keeping the best score per composite key, and the
merged values are filtered by the threshold, sorted by descending
score, and truncated to `top_k`. -/
def searchFused {α : Type} (scan : α → Nat → List SearchHit)
    (queries : List α) (topK : Nat) (threshold : ℚ) : List SearchHit :=
  if queries.isEmpty then []
  else
    let kq := perQueryK queries.length topK
    let scanned := (queries.map fun q => scan q kq).flatten
    let best := (scanned.foldl upsertBest []).map Prod.snd
    let merged := best.filter fun r => decide (threshold ≤ r.score)
    (sortDesc merged).take topK

/-! ### Association-list lemmas -/

theorem alookup_append_none {β : Type} (m₁ m₂ : List (String × β)) (k : String)
    (h : alookup m₁ k = none) : alookup (m₁ ++ m₂) k = alookup m₂ k := by
  induction m₁ with
  | nil => rfl
  | cons kv rest ih =>
      obtain ⟨k', v⟩ := kv
      by_cases hk : k' = k
      · simp [alookup, hk] at h
      · simp only [alookup, if_neg hk] at h
        simpa [alookup, hk] using ih h

theorem alookup_append_some {β : Type} (m₁ m₂ : List (String × β)) (k : String)
    (v : β) (h : alookup m₁ k = some v) : alookup (m₁ ++ m₂) k = some v := by
  induction m₁ with
  | nil => simp [alookup] at h
  | cons kv rest ih =>
      obtain ⟨k', v'⟩ := kv
      by_cases hk : k' = k
      · simp only [alookup, if_pos hk] at h
        simp [alookup, hk, h]
      · simp only [alookup, if_neg hk] at h
        simpa [alookup, hk] using ih h

theorem alookup_isSome_of_mem_keys {β : Type} (m : List (String × β))
    (k : String) (h : k ∈ m.map Prod.fst) : (alookup m k).isSome := by
  induction m with
  | nil => simp at h
  | cons kv rest ih =>
      obtain ⟨k', v⟩ := kv
      by_cases hk : k' = k
      · simp [alookup, hk]
      · simp only [List.map_cons, List.mem_cons] at h
        rcases h with h | h
        · exact absurd h.symm hk
        · simpa [alookup, hk] using ih h

theorem alookup_mem {β : Type} (m : List (String × β)) (k : String) (v : β)
    (h : alookup m k = some v) : (k, v) ∈ m := by
  induction m with
  | nil => simp [alookup] at h
  | cons kv rest ih =>
      obtain ⟨k', v'⟩ := kv
      by_cases hk : k' = k
      · subst hk
        have h' : v' = v := by simpa [alookup] using h
        subst h'
        exact List.mem_cons_self _ _
      · simp only [alookup, if_neg hk] at h
        exact List.mem_cons_of_mem _ (ih h)

theorem mem_alookup_of_nodup {β : Type} (m : List (String × β)) (k : String)
    (v : β) (hnd : (m.map Prod.fst).Nodup) (hm : (k, v) ∈ m) :
    alookup m k = some v := by
  induction m with
  | nil => simp at hm
  | cons kv rest ih =>
      obtain ⟨k', v'⟩ := kv
      simp only [List.map_cons, List.nodup_cons] at hnd
      rcases List.mem_cons.mp hm with h | h
      · rw [Prod.mk.injEq] at h
        obtain ⟨hk, hv⟩ := h
        subst hk; subst hv
        simp [alookup]
      · have hk : k' ≠ k := by
          intro he
          subst he
          exact hnd.1 (List.mem_map.mpr ⟨(k', v), h, rfl⟩)
        simp only [alookup, if_neg hk]
        exact ih hnd.2 h

theorem map_fst_replaceVal {β : Type} (m : List (String × β)) (k : String)
    (v : β) : (replaceVal m k v).map Prod.fst = m.map Prod.fst := by
  induction m with
  | nil => rfl
  | cons kv rest ih =>
      obtain ⟨k', v'⟩ := kv
      by_cases hk : k' = k
      · simp [replaceVal, hk]
      · simp [replaceVal, hk, ih]

theorem alookup_replaceVal_ne {β : Type} (m : List (String × β))
    (k k₀ : String) (v : β) (h : k₀ ≠ k) :
    alookup (replaceVal m k₀ v) k = alookup m k := by
  induction m with
  | nil => rfl
  | cons kv rest ih =>
      obtain ⟨k', v'⟩ := kv
      by_cases hk : k' = k₀
      · subst hk
        simp [replaceVal, alookup, h, ih]
      · by_cases hk2 : k' = k
        · simp [replaceVal, alookup, hk, hk2, Ne.symm h]
        · simp [replaceVal, alookup, hk, hk2, ih]

theorem alookup_replaceVal_self {β : Type} (m : List (String × β))
    (k₀ : String) (v e : β) (h : alookup m k₀ = some e) :
    alookup (replaceVal m k₀ v) k₀ = some v := by
  induction m with
  | nil => simp [alookup] at h
  | cons kv rest ih =>
      obtain ⟨k', v'⟩ := kv
      by_cases hk : k' = k₀
      · subst hk
        simp [replaceVal, alookup]
      · simp only [alookup, if_neg hk] at h
        simp [replaceVal, alookup, hk, ih h]

/-! ### The merge-loop invariant -/

/-- Invariant of `best_by_key` after processing the results `p`:
keys are distinct; every stored entry is keyed by its own composite
key, is one of the processed results, and its score dominates every
processed result with the same key; and every processed result has an
entry under its key. -/
def MapOk (m : List (String × SearchHit)) (p : List SearchHit) : Prop :=
  (m.map Prod.fst).Nodup ∧
  (∀ k r, alookup m k = some r →
      k = hitKey r ∧ r ∈ p ∧ ∀ s ∈ p, hitKey s = k → s.score ≤ r.score) ∧
  (∀ s ∈ p, (alookup m (hitKey s)).isSome)

theorem mapOk_nil : MapOk [] [] := by
  refine ⟨List.nodup_nil, ?_, ?_⟩
  · intro k r h
    simp [alookup] at h
  · intro s hs
    simp at hs

theorem mapOk_step (m : List (String × SearchHit)) (p : List SearchHit)
    (s : SearchHit) (hok : MapOk m p) : MapOk (upsertBest m s) (p ++ [s]) := by
  obtain ⟨hnd, hent, hdom⟩ := hok
  rcases hl : alookup m (hitKey s) with _ | e
  · -- new key, appended
    have hup : upsertBest m s = m ++ [(hitKey s, s)] := by
      unfold upsertBest
      rw [hl]
    rw [hup]
    refine ⟨?_, ?_, ?_⟩
    · rw [List.map_append]
      simp only [List.map_cons, List.map_nil]
      rw [List.nodup_append]
      refine ⟨hnd, List.nodup_singleton _, ?_⟩
      intro a ha hb
      simp only [List.mem_singleton] at hb
      subst hb
      have := alookup_isSome_of_mem_keys m (hitKey s) ha
      rw [hl] at this
      simp at this
    · intro k r hr
      rcases hm : alookup m k with _ | r'
      · rw [alookup_append_none m _ k hm] at hr
        by_cases hk : hitKey s = k
        · rw [show alookup [(hitKey s, s)] k = some s by simp [alookup, hk]] at hr
          obtain rfl := Option.some.inj hr
          refine ⟨hk.symm, List.mem_append_right _ (List.mem_singleton_self _), ?_⟩
          intro t ht htk
          rcases List.mem_append.mp ht with ht | ht
          · have := hdom t ht
            rw [htk, ← hk, hl] at this
            simp at this
          · simp only [List.mem_singleton] at ht
            subst ht
            exact le_refl _
        · rw [show alookup [(hitKey s, s)] k = none by simp [alookup, hk]] at hr
          simp at hr
      · rw [alookup_append_some m _ k r' hm] at hr
        obtain rfl := Option.some.inj hr
        obtain ⟨h1, h2, h3⟩ := hent k r' hm
        refine ⟨h1, List.mem_append_left _ h2, ?_⟩
        intro t ht htk
        rcases List.mem_append.mp ht with ht | ht
        · exact h3 t ht htk
        · simp only [List.mem_singleton] at ht
          subst ht
          rw [htk, h1] at hl
          rw [h1] at hm
          rw [hl] at hm
          simp at hm
    · intro t ht
      rcases List.mem_append.mp ht with ht | ht
      · have hts := hdom t ht
        rcases hm : alookup m (hitKey t) with _ | r'
        · rw [hm] at hts; simp at hts
        · rw [alookup_append_some m _ _ r' hm]
          simp
      · simp only [List.mem_singleton] at ht
        subst ht
        rw [alookup_append_none m _ _ hl]
        simp [alookup]
  · by_cases hsc : e.score < s.score
    · -- replace under the same key
      have hup : upsertBest m s = replaceVal m (hitKey s) s := by
        unfold upsertBest
        rw [hl]
        exact if_pos hsc
      rw [hup]
      refine ⟨?_, ?_, ?_⟩
      · rw [map_fst_replaceVal]; exact hnd
      · intro k r hr
        by_cases hk : hitKey s = k
        · subst hk
          rw [alookup_replaceVal_self m _ s e hl] at hr
          obtain rfl := Option.some.inj hr
          refine ⟨rfl, List.mem_append_right _ (List.mem_singleton_self _), ?_⟩
          intro t ht htk
          rcases List.mem_append.mp ht with ht | ht
          · have := (hent _ e hl).2.2 t ht htk
            exact le_of_lt (lt_of_le_of_lt this hsc)
          · simp only [List.mem_singleton] at ht
            subst ht
            exact le_refl _
        · rw [alookup_replaceVal_ne m k (hitKey s) s hk] at hr
          obtain ⟨h1, h2, h3⟩ := hent k r hr
          refine ⟨h1, List.mem_append_left _ h2, ?_⟩
          intro t ht htk
          rcases List.mem_append.mp ht with ht | ht
          · exact h3 t ht htk
          · simp only [List.mem_singleton] at ht
            subst ht
            exact absurd htk hk
      · intro t ht
        rcases List.mem_append.mp ht with ht | ht
        · by_cases hk : hitKey s = hitKey t
          · rw [← hk, alookup_replaceVal_self m _ s e hl]
            simp
          · rw [alookup_replaceVal_ne m (hitKey t) (hitKey s) s hk]
            exact hdom t ht
        · simp only [List.mem_singleton] at ht
          subst ht
          rw [alookup_replaceVal_self m _ _ e hl]
          simp
    · -- tie or worse: earliest result kept
      have hup : upsertBest m s = m := by
        unfold upsertBest
        rw [hl]
        exact if_neg hsc
      rw [hup]
      refine ⟨hnd, ?_, ?_⟩
      · intro k r hr
        obtain ⟨h1, h2, h3⟩ := hent k r hr
        refine ⟨h1, List.mem_append_left _ h2, ?_⟩
        intro t ht htk
        rcases List.mem_append.mp ht with ht | ht
        · exact h3 t ht htk
        · simp only [List.mem_singleton] at ht
          subst ht
          rw [← htk] at hr
          rw [hl] at hr
          obtain rfl := Option.some.inj hr
          exact le_of_not_lt hsc
      · intro t ht
        rcases List.mem_append.mp ht with ht | ht
        · exact hdom t ht
        · simp only [List.mem_singleton] at ht
          subst ht
          rw [hl]
          simp

theorem mapOk_foldl (p : List SearchHit) :
    ∀ (p₀ : List SearchHit) (m : List (String × SearchHit)), MapOk m p₀ →
      MapOk (p.foldl upsertBest m) (p₀ ++ p) := by
  induction p with
  | nil =>
      intro p₀ m h
      simpa using h
  | cons s rest ih =>
      intro p₀ m h
      have hstep := mapOk_step m p₀ s h
      have := ih (p₀ ++ [s]) (upsertBest m s) hstep
      simpa [List.append_assoc] using this

/-! ### Sorting lemmas -/

theorem sortInsDesc_perm (r : SearchHit) (l : List SearchHit) :
    (sortInsDesc r l).Perm (r :: l) := by
  induction l with
  | nil => exact List.Perm.refl _
  | cons y ys ih =>
      unfold sortInsDesc
      by_cases h : r.score ≤ y.score
      · rw [if_pos h]
        exact (ih.cons y).trans (List.Perm.swap r y ys)
      · rw [if_neg h]

theorem sortDesc_foldl_perm (l : List SearchHit) :
    ∀ acc, (l.foldl (fun acc r => sortInsDesc r acc) acc).Perm (acc ++ l) := by
  induction l with
  | nil => intro acc; simp
  | cons r rest ih =>
      intro acc
      have h1 := ih (sortInsDesc r acc)
      have h2 : ((sortInsDesc r acc) ++ rest).Perm ((r :: acc) ++ rest) :=
        (sortInsDesc_perm r acc).append_right rest
      have h3 : ((r :: acc) ++ rest).Perm (acc ++ r :: rest) := by
        simpa using List.perm_middle.symm
      simpa using (h1.trans h2).trans h3

theorem sortDesc_perm (l : List SearchHit) : (sortDesc l).Perm l := by
  simpa using sortDesc_foldl_perm l []

theorem sortInsDesc_sorted (r : SearchHit) (l : List SearchHit)
    (h : l.Pairwise fun a b => b.score ≤ a.score) :
    (sortInsDesc r l).Pairwise fun a b => b.score ≤ a.score := by
  induction l with
  | nil => simp [sortInsDesc]
  | cons y ys ih =>
      rw [List.pairwise_cons] at h
      obtain ⟨hy, hys⟩ := h
      unfold sortInsDesc
      by_cases hsc : r.score ≤ y.score
      · rw [if_pos hsc]
        rw [List.pairwise_cons]
        refine ⟨?_, ih hys⟩
        intro z hz
        rcases List.mem_cons.mp ((sortInsDesc_perm r ys).mem_iff.mp hz) with hz | hz
        · subst hz
          exact hsc
        · exact hy z hz
      · rw [if_neg hsc]
        rw [List.pairwise_cons]
        refine ⟨?_, List.pairwise_cons.mpr ⟨hy, hys⟩⟩
        intro z hz
        rcases List.mem_cons.mp hz with hz | hz
        · subst hz
          exact le_of_lt (lt_of_not_le hsc)
        · exact le_trans (hy z hz) (le_of_lt (lt_of_not_le hsc))

theorem sortDesc_sorted (l : List SearchHit) :
    (sortDesc l).Pairwise fun a b => b.score ≤ a.score := by
  suffices h : ∀ (l acc : List SearchHit),
      (acc.Pairwise fun a b => b.score ≤ a.score) →
      ((l.foldl (fun acc r => sortInsDesc r acc) acc).Pairwise
        fun a b => b.score ≤ a.score) by
    exact h l [] List.Pairwise.nil
  intro l
  induction l with
  | nil => intro acc hacc; exact hacc
  | cons r rest ih =>
      intro acc hacc
      exact ih (sortInsDesc r acc) (sortInsDesc_sorted r acc hacc)

/-- The concatenated per-query scan results that the merge loop
consumes (each query scanned at depth `perQueryK`). -/
def scannedResults {α : Type} (scan : α → Nat → List SearchHit)
    (queries : List α) (topK : Nat) : List SearchHit :=
  (queries.map fun q => scan q (perQueryK queries.length topK)).flatten

/-- Claim C2: For every `search` call (an arbitrary per-query scan
standing for `db.search` with the filters fixed): the per-query depth
is `⌈1.5·top_k⌉` exactly when there is more than one query and `top_k`
otherwise; every returned row is a scanned row whose score meets the
threshold and is maximal among all scanned rows sharing its composite
`file_path:line:name` key; returned keys are pairwise distinct; the
result is sorted by descending score; it has at most `top_k` rows; and
when fewer than `top_k` rows are returned, every scanned row meeting
the threshold is represented by its key. -/
theorem search_fusion_pipeline {α : Type} (scan : α → Nat → List SearchHit)
    (queries : List α) (topK : Nat) (threshold : ℚ) :
    perQueryK queries.length topK =
      (if 1 < queries.length then (⌈(3 : ℚ) / 2 * (topK : ℚ)⌉).toNat else topK) ∧
    (∀ r ∈ searchFused scan queries topK threshold,
       r ∈ scannedResults scan queries topK ∧ threshold ≤ r.score ∧
       ∀ s ∈ scannedResults scan queries topK,
         hitKey s = hitKey r → s.score ≤ r.score) ∧
    (searchFused scan queries topK threshold).Pairwise
      (fun a b => hitKey a ≠ hitKey b) ∧
    (searchFused scan queries topK threshold).Pairwise
      (fun a b => b.score ≤ a.score) ∧
    (searchFused scan queries topK threshold).length ≤ topK ∧
    ((searchFused scan queries topK threshold).length < topK →
       ∀ s ∈ scannedResults scan queries topK, threshold ≤ s.score →
         ∃ r ∈ searchFused scan queries topK threshold,
           hitKey r = hitKey s) := by
  refine ⟨rfl, ?_⟩
  by_cases hq : queries.isEmpty = true
  · have hqnil : queries = [] := List.isEmpty_iff.mp hq
    subst hqnil
    have hout : searchFused scan ([] : List α) topK threshold = [] := rfl
    have hscan : scannedResults scan ([] : List α) topK = [] := rfl
    rw [hout, hscan]
    refine ⟨?_, List.Pairwise.nil, List.Pairwise.nil, by simp, ?_⟩
    · intro r hr
      simp at hr
    · intro _ s hs
      simp at hs
  · have hout : searchFused scan queries topK threshold =
        (sortDesc (((scannedResults scan queries topK).foldl upsertBest []).map
            Prod.snd |>.filter fun r => decide (threshold ≤ r.score))).take topK := by
      unfold searchFused scannedResults
      rw [if_neg hq]
    have hM : MapOk ((scannedResults scan queries topK).foldl upsertBest [])
        (scannedResults scan queries topK) := by
      simpa using mapOk_foldl (scannedResults scan queries topK) [] [] mapOk_nil
    obtain ⟨hnd, hent, hdom⟩ := hM
    set M := (scannedResults scan queries topK).foldl upsertBest [] with hMdef
    set best := M.map Prod.snd with hbest
    set merged := best.filter fun r => decide (threshold ≤ r.score) with hmerged
    -- membership of the output in the merged list
    have hmem_out : ∀ r ∈ searchFused scan queries topK threshold, r ∈ merged := by
      intro r hr
      rw [hout] at hr
      exact (sortDesc_perm merged).mem_iff.mp (List.mem_of_mem_take hr)
    -- every merged element is a dominating scanned element
    have hmerged_prop : ∀ r ∈ merged,
        r ∈ scannedResults scan queries topK ∧ threshold ≤ r.score ∧
        ∀ s ∈ scannedResults scan queries topK,
          hitKey s = hitKey r → s.score ≤ r.score := by
      intro r hr
      rw [hmerged] at hr
      obtain ⟨hrb, hrt⟩ := List.mem_filter.mp hr
      obtain ⟨kr, hkr, hkr2⟩ := List.mem_map.mp hrb
      have hlook : alookup M kr.1 = some kr.2 := by
        refine mem_alookup_of_nodup M kr.1 kr.2 hnd ?_
        simpa using hkr
      obtain ⟨h1, h2, h3⟩ := hent kr.1 kr.2 hlook
      subst hkr2
      refine ⟨h2, of_decide_eq_true hrt, ?_⟩
      intro s hs hsk
      exact h3 s hs (by rw [hsk, h1])
    constructor
    · intro r hr
      exact hmerged_prop r (hmem_out r hr)
    -- pairwise-distinct keys on the merged list
    have hkeys : merged.Pairwise fun a b => hitKey a ≠ hitKey b := by
      have hbk : best.map hitKey = M.map Prod.fst := by
        rw [hbest, List.map_map]
        refine List.map_congr_left ?_
        intro kr hkr
        have hlook : alookup M kr.1 = some kr.2 := by
          refine mem_alookup_of_nodup M kr.1 kr.2 hnd ?_
          simpa using hkr
        exact ((hent kr.1 kr.2 hlook).1).symm
      have hbnd : best.Pairwise fun a b => hitKey a ≠ hitKey b := by
        have : (best.map hitKey).Nodup := by rw [hbk]; exact hnd
        exact List.pairwise_map.mp this
      exact hbnd.sublist (List.filter_sublist best)
    have hperm : (sortDesc merged).Perm merged := sortDesc_perm merged
    constructor
    · rw [hout]
      refine List.Pairwise.sublist (List.take_sublist _ _) ?_
      exact (hperm.pairwise_iff fun {x y} hxy => hxy.symm).mpr hkeys
    constructor
    · rw [hout]
      exact (sortDesc_sorted merged).sublist (List.take_sublist _ _)
    constructor
    · rw [hout]
      exact List.length_take_le _ _
    · intro hlen s hs hts
      have hall : searchFused scan queries topK threshold = sortDesc merged := by
        rw [hout] at hlen ⊢
        rw [List.length_take] at hlen
        have : (sortDesc merged).length < topK := by
          rcases Nat.lt_or_ge (sortDesc merged).length topK with h | h
          · exact h
          · rw [Nat.min_eq_left h] at hlen
            exact absurd hlen (lt_irrefl _)
        exact List.take_of_length_le (le_of_lt this)
      have hsome := hdom s hs
      obtain ⟨r, hr⟩ := Option.isSome_iff_exists.mp hsome
      obtain ⟨h1, h2, h3⟩ := hent (hitKey s) r hr
      have hrb : r ∈ best := by
        rw [hbest]
        exact List.mem_map.mpr ⟨(hitKey s, r), alookup_mem M (hitKey s) r hr, rfl⟩
      have hrm : r ∈ merged := by
        rw [hmerged]
        refine List.mem_filter.mpr ⟨hrb, ?_⟩
        exact decide_eq_true (le_trans hts (h3 s hs rfl))
      refine ⟨r, ?_, h1.symm⟩
      rw [hall]
      exact hperm.mem_iff.mpr hrm

/-- A concrete scan used in the C2 witness: two queries (indices `0`
and `1`) hitting two symbols, one of them under both queries with
different scores.  Scores are integer-valued so the kernel can
evaluate the comparisons. -/
def hitA : SearchHit := ⟨"a.go", "RL", "function", "go", 1, none, none, 2⟩

def hitB : SearchHit := ⟨"b.go", "TB", "function", "go", 2, none, none, 1⟩

def hitA2 : SearchHit := ⟨"a.go", "RL", "function", "go", 1, none, none, 1⟩

def scanW : Nat → Nat → List SearchHit :=
  fun q _ => if q = 0 then [hitA, hitB] else [hitA2]

/-- Witness for C2 at the concrete scan `scanW`, two queries,
`top_k = 3`, `threshold = 0`: the hypotheses of the inner conjuncts
are discharged at concrete rows. -/
theorem search_fusion_pipeline_witness :
    perQueryK [0, 1].length 3 =
      (if 1 < [0, 1].length then (⌈(3 : ℚ) / 2 * (3 : ℚ)⌉).toNat else 3) ∧
    (hitA ∈ searchFused scanW [0, 1] 3 0 ∧
       hitA ∈ scannedResults scanW [0, 1] 3 ∧ (0 : ℚ) ≤ hitA.score) ∧
    (searchFused scanW [0, 1] 3 0).length < 3 ∧
    (∃ r ∈ searchFused scanW [0, 1] 3 0, hitKey r = hitKey hitA2) := by
  obtain ⟨hk, hmem, _hpwk, _hpws, _hlen, hcomp⟩ :=
    search_fusion_pipeline scanW [0, 1] 3 0
  refine ⟨hk, ?_, ?_, ?_⟩
  · have hA : hitA ∈ searchFused scanW [0, 1] 3 0 := by decide
    obtain ⟨h1, h2, _⟩ := hmem hitA hA
    exact ⟨hA, h1, h2⟩
  · decide
  · exact hcomp (by decide) hitA2 (by decide) (by decide)

/-! ## The per-query scan (`SearchDB::search`, db.rs) vs the spec's
bounded max-heap reference algorithm (§4.6, `bench_streaming`)

`SearchDB::search` selects the filter-matching rows ordered by
`vec_distance_l2` ascending, limited to `top_k`.  Ordering by the
Euclidean distance coincides with ordering by the squared distance
`d = Σ(q_i − e_i)²` (`vecDistanceL2_le_iff` below), so the row
selection is modelled with the computable squared distance.  The SQL
`WHERE` clauses are abstracted into a row predicate `matches`, applied
identically on both sides. -/

/-- The squared L2 distance of a stored row to the query. -/
def symDist (q : List ℚ) (r : StoredSymbol) : ℚ := l2sq q r.embedding

/-- Ordering rows by `vec_distance_l2` (the SQL `ORDER BY _dist ASC`
key) is the same as ordering them by the squared distance. -/
theorem vecDistanceL2_le_iff (q : List ℚ) (a b : StoredSymbol) :
    vecDistanceL2 q a.embedding ≤ vecDistanceL2 q b.embedding ↔
      symDist q a ≤ symDist q b := by
  unfold vecDistanceL2 symDist
  rw [Real.sqrt_le_sqrt_iff (by exact_mod_cast l2sq_nonneg q b.embedding)]
  exact_mod_cast Iff.rfl

/-- Stable insertion ascending by squared distance. -/
def insAsc (q : List ℚ) (r : StoredSymbol) :
    List StoredSymbol → List StoredSymbol
  | [] => [r]
  | y :: ys =>
      if symDist q r < symDist q y then r :: y :: ys else y :: insAsc q r ys

def sortAsc (q : List ℚ) (l : List StoredSymbol) : List StoredSymbol :=
  l.foldl (fun acc r => insAsc q r acc) []

/-- The row list produced by `SearchDB::search` (db.rs lines 242–308):
`SELECT … FROM symbols WHERE <filters> ORDER BY vec_distance_l2 ASC
LIMIT top_k`.  (`search` then maps each row to a `SearchResult` whose
score is `searchScore` of its embedding.) -/
def searchRows (q : List ℚ) (keep : StoredSymbol → Bool)
    (rows : List StoredSymbol) (topK : Nat) : List StoredSymbol :=
  (sortAsc q (rows.filter keep)).take topK

/-- Modelled from the spec (§4.6) and `bench_streaming`
(search_bench.rs lines 69–94): one step of the bounded max-heap —
push while the heap holds fewer than `top_k` rows, otherwise compare
against `heap.peek()` and replace exactly when strictly smaller.  The
heap is represented as its drained, ascending-sorted element list
(`peek` is the last element, popping drops it); under the
distinct-distance hypothesis of the refinement theorem this determines
the heap's contents uniquely. -/
def heapStep (q : List ℚ) (topK : Nat) (h : List StoredSymbol)
    (r : StoredSymbol) : List StoredSymbol :=
  if h.length < topK then insAsc q r h
  else
    match h.getLast? with
    | none => h
    | some m => if symDist q r < symDist q m then insAsc q r h.dropLast else h

/-- The spec's reference algorithm: stream the filter-matching rows
through the bounded heap, then drain sorted ascending by distance. -/
def heapScan (q : List ℚ) (keep : StoredSymbol → Bool)
    (rows : List StoredSymbol) (topK : Nat) : List StoredSymbol :=
  (rows.filter keep).foldl (heapStep q topK) []

/-! ### Lemmas about `insAsc` / `sortAsc` -/

theorem length_insAsc (q : List ℚ) (r : StoredSymbol) (l : List StoredSymbol) :
    (insAsc q r l).length = l.length + 1 := by
  induction l with
  | nil => rfl
  | cons y ys ih =>
      unfold insAsc
      by_cases h : symDist q r < symDist q y
      · rw [if_pos h]; rfl
      · rw [if_neg h]
        simp [ih]

theorem insAsc_perm (q : List ℚ) (r : StoredSymbol) (l : List StoredSymbol) :
    (insAsc q r l).Perm (r :: l) := by
  induction l with
  | nil => exact List.Perm.refl _
  | cons y ys ih =>
      unfold insAsc
      by_cases h : symDist q r < symDist q y
      · rw [if_pos h]
      · rw [if_neg h]
        exact (ih.cons y).trans (List.Perm.swap r y ys)

theorem sortAsc_append_singleton (q : List ℚ) (p : List StoredSymbol)
    (r : StoredSymbol) : sortAsc q (p ++ [r]) = insAsc q r (sortAsc q p) := by
  unfold sortAsc
  rw [List.foldl_append]
  rfl

theorem sortAsc_perm (q : List ℚ) (l : List StoredSymbol) :
    (sortAsc q l).Perm l := by
  suffices h : ∀ (l acc : List StoredSymbol),
      (l.foldl (fun acc r => insAsc q r acc) acc).Perm (acc ++ l) by
    simpa using h l []
  intro l
  induction l with
  | nil => intro acc; simp
  | cons r rest ih =>
      intro acc
      have h1 := ih (insAsc q r acc)
      have h2 : ((insAsc q r acc) ++ rest).Perm ((r :: acc) ++ rest) :=
        (insAsc_perm q r acc).append_right rest
      have h3 : ((r :: acc) ++ rest).Perm (acc ++ r :: rest) := by
        simpa using List.perm_middle.symm
      simpa using (h1.trans h2).trans h3

theorem insAsc_sorted (q : List ℚ) (r : StoredSymbol) (l : List StoredSymbol)
    (h : l.Pairwise fun a b => symDist q a ≤ symDist q b) :
    (insAsc q r l).Pairwise fun a b => symDist q a ≤ symDist q b := by
  induction l with
  | nil => simp [insAsc]
  | cons y ys ih =>
      rw [List.pairwise_cons] at h
      obtain ⟨hy, hys⟩ := h
      unfold insAsc
      by_cases hsc : symDist q r < symDist q y
      · rw [if_pos hsc]
        rw [List.pairwise_cons]
        refine ⟨?_, List.pairwise_cons.mpr ⟨hy, hys⟩⟩
        intro z hz
        rcases List.mem_cons.mp hz with hz | hz
        · subst hz
          exact le_of_lt hsc
        · exact le_trans (le_of_lt hsc) (hy z hz)
      · rw [if_neg hsc]
        rw [List.pairwise_cons]
        refine ⟨?_, ih hys⟩
        intro z hz
        rcases List.mem_cons.mp ((insAsc_perm q r ys).mem_iff.mp hz) with hz | hz
        · subst hz
          exact le_of_not_lt hsc
        · exact hy z hz

theorem sortAsc_sorted (q : List ℚ) (l : List StoredSymbol) :
    (sortAsc q l).Pairwise fun a b => symDist q a ≤ symDist q b := by
  suffices h : ∀ (l acc : List StoredSymbol),
      (acc.Pairwise fun a b => symDist q a ≤ symDist q b) →
      ((l.foldl (fun acc r => insAsc q r acc) acc).Pairwise
        fun a b => symDist q a ≤ symDist q b) by
    exact h l [] List.Pairwise.nil
  intro l
  induction l with
  | nil => intro acc hacc; exact hacc
  | cons r rest ih =>
      intro acc hacc
      exact ih (insAsc q r acc) (insAsc_sorted q r acc hacc)

theorem mem_of_getLastQ {l : List StoredSymbol} {a : StoredSymbol}
    (h : l.getLast? = some a) : a ∈ l := by
  induction l with
  | nil => simp at h
  | cons x xs ih =>
      cases xs with
      | nil =>
          simp only [List.getLast?_singleton, Option.some.injEq] at h
          subst h
          exact List.mem_singleton_self _
      | cons y ys =>
          rw [List.getLast?_cons_cons] at h
          exact List.mem_cons_of_mem _ (ih h)

theorem dropLast_take {γ : Type} (l : List γ) :
    ∀ n, n < l.length → (l.take (n + 1)).dropLast = l.take n := by
  induction l with
  | nil =>
      intro n hn
      simp at hn
  | cons x xs ih =>
      intro n hn
      cases n with
      | zero => simp
      | succ n' =>
          rw [List.take_succ_cons, List.take_succ_cons]
          have hx : xs.take (n' + 1) ≠ [] := by
            have hlen : (xs.take (n' + 1)).length = n' + 1 := by
              rw [List.length_take]
              have : n' + 1 ≤ xs.length := by
                simpa [Nat.succ_lt_succ_iff] using hn
              omega
            intro hnil
            rw [hnil] at hlen
            simp at hlen
          rw [List.dropLast_cons_of_ne_nil hx]
          have : n' < xs.length := by
            simpa [Nat.succ_lt_succ_iff] using hn
          rw [ih n' this]

theorem take_eq_nil_cases {γ : Type} (l : List γ) (n : Nat)
    (h : l.take n = []) : n = 0 ∨ l = [] := by
  cases n with
  | zero => exact Or.inl rfl
  | succ n' =>
      cases l with
      | nil => exact Or.inr rfl
      | cons x xs => simp at h

theorem insAsc_nil (q : List ℚ) (r : StoredSymbol) : insAsc q r [] = [r] := rfl

theorem insAsc_cons (q : List ℚ) (r y : StoredSymbol) (ys : List StoredSymbol) :
    insAsc q r (y :: ys) =
      if symDist q r < symDist q y then r :: y :: ys else y :: insAsc q r ys := rfl

/-- On a sorted list, when the new row beats the element at the take
boundary, truncating the insertion is the same as inserting into the
truncation with its last element dropped. -/
theorem take_insAsc_of_lt (q : List ℚ) :
    ∀ (s : List StoredSymbol) (k : Nat) (m r : StoredSymbol),
      (s.Pairwise fun a b => symDist q a ≤ symDist q b) →
      k ≤ s.length →
      (s.take k).getLast? = some m →
      symDist q r < symDist q m →
      (insAsc q r s).take k = insAsc q r (s.take k).dropLast := by
  intro s
  induction s with
  | nil =>
      intro k m r _ hk hlast _
      rw [List.take_nil] at hlast
      simp at hlast
  | cons y ys ih =>
      intro k m r hsort hk hlast hlt
      cases k with
      | zero => simp at hlast
      | succ k' =>
          have hk' : k' ≤ ys.length := by simpa using hk
          rw [List.take_succ_cons] at hlast
          rw [List.pairwise_cons] at hsort
          obtain ⟨hy, hys⟩ := hsort
          by_cases h0 : ys.take k' = []
          · have hk0 : k' = 0 := by
              rcases take_eq_nil_cases ys k' h0 with h | h
              · exact h
              · subst h
                simpa using hk'
            subst hk0
            simp only [List.take_zero, List.getLast?_singleton,
              Option.some.injEq] at hlast
            subst hlast
            rw [insAsc_cons, if_pos hlt]
            simp [insAsc_nil]
          · have hlast' : (ys.take k').getLast? = some m := by
              obtain ⟨z, zs, hz⟩ := List.exists_cons_of_ne_nil h0
              rw [hz] at hlast ⊢
              rw [List.getLast?_cons_cons] at hlast
              exact hlast
            have hk'0 : k' ≠ 0 := by
              intro h
              subst h
              simp at h0
            by_cases hr : symDist q r < symDist q y
            · obtain ⟨k'', hk''⟩ := Nat.exists_eq_succ_of_ne_zero hk'0
              subst hk''
              rw [insAsc_cons, if_pos hr]
              simp only [List.take_succ_cons]
              rw [List.dropLast_cons_of_ne_nil h0]
              rw [insAsc_cons, if_pos hr]
              have hlt2 : k'' < ys.length := by omega
              rw [dropLast_take ys k'' hlt2]
            · rw [insAsc_cons, if_neg hr]
              simp only [List.take_succ_cons]
              rw [List.dropLast_cons_of_ne_nil h0]
              rw [insAsc_cons, if_neg hr]
              rw [ih k' m r hys hk' hlast' hlt]

/-- On a sorted list, when the new row loses to the element at the take
boundary, the truncated insertion is the unchanged truncation. -/
theorem take_insAsc_of_gt (q : List ℚ) :
    ∀ (s : List StoredSymbol) (k : Nat) (m r : StoredSymbol),
      (s.Pairwise fun a b => symDist q a ≤ symDist q b) →
      k ≤ s.length →
      (s.take k).getLast? = some m →
      symDist q m < symDist q r →
      (insAsc q r s).take k = s.take k := by
  intro s
  induction s with
  | nil =>
      intro k m r _ hk hlast _
      rw [List.take_nil] at hlast
      simp at hlast
  | cons y ys ih =>
      intro k m r hsort hk hlast hgt
      cases k with
      | zero => simp at hlast
      | succ k' =>
          have hk' : k' ≤ ys.length := by simpa using hk
          rw [List.take_succ_cons] at hlast
          rw [List.pairwise_cons] at hsort
          obtain ⟨hy, hys⟩ := hsort
          by_cases h0 : ys.take k' = []
          · have hk0 : k' = 0 := by
              rcases take_eq_nil_cases ys k' h0 with h | h
              · exact h
              · subst h
                simpa using hk'
            subst hk0
            simp only [List.take_zero, List.getLast?_singleton,
              Option.some.injEq] at hlast
            subst hlast
            rw [insAsc_cons, if_neg (not_lt_of_gt hgt)]
            simp
          · have hlast' : (ys.take k').getLast? = some m := by
              obtain ⟨z, zs, hz⟩ := List.exists_cons_of_ne_nil h0
              rw [hz] at hlast ⊢
              rw [List.getLast?_cons_cons] at hlast
              exact hlast
            have hmem : m ∈ ys :=
              List.mem_of_mem_take (mem_of_getLastQ hlast')
            have hyr : ¬symDist q r < symDist q y :=
              not_lt_of_gt (lt_of_le_of_lt (hy m hmem) hgt)
            rw [insAsc_cons, if_neg hyr]
            simp only [List.take_succ_cons]
            rw [ih k' m r hys hk' hlast' hgt]

/-- One heap step agrees with truncating the sorted insert, as long as
the new row's distance differs from every row already seen. -/
theorem heapStep_take (q : List ℚ) (k : Nat) (s : List StoredSymbol)
    (r : StoredSymbol)
    (hs : s.Pairwise fun a b => symDist q a ≤ symDist q b)
    (hd : ∀ a ∈ s, symDist q a ≠ symDist q r) :
    heapStep q k (s.take k) r = (insAsc q r s).take k := by
  by_cases hlt : (s.take k).length < k
  · have hslen : s.length < k := by
      rw [List.length_take] at hlt
      omega
    have hts : s.take k = s := List.take_of_length_le (le_of_lt hslen)
    unfold heapStep
    rw [if_pos hlt, hts]
    have hlen2 : (insAsc q r s).length ≤ k := by
      rw [length_insAsc]
      omega
    rw [List.take_of_length_le hlen2]
  · have hk : k ≤ s.length := by
      rw [List.length_take] at hlt
      omega
    cases k with
    | zero =>
        unfold heapStep
        simp
    | succ k' =>
        have hlen : (s.take (k' + 1)).length = k' + 1 := by
          rw [List.length_take]
          omega
        have hne : s.take (k' + 1) ≠ [] := by
          intro h
          rw [h] at hlen
          simp at hlen
        obtain ⟨m, hm⟩ : ∃ m, (s.take (k' + 1)).getLast? = some m := by
          cases hgl : (s.take (k' + 1)).getLast? with
          | none =>
              rw [List.getLast?_eq_none_iff] at hgl
              exact absurd hgl hne
          | some m => exact ⟨m, rfl⟩
        have hmem : m ∈ s := List.mem_of_mem_take (mem_of_getLastQ hm)
        have hmr : symDist q m ≠ symDist q r := hd m hmem
        have hred : heapStep q (k' + 1) (s.take (k' + 1)) r =
            if symDist q r < symDist q m then
              insAsc q r ((s.take (k' + 1)).dropLast)
            else s.take (k' + 1) := by
          unfold heapStep
          rw [if_neg hlt, hm]
        rw [hred]
        by_cases hc : symDist q r < symDist q m
        · rw [if_pos hc]
          exact (take_insAsc_of_lt q s (k' + 1) m r hs hk hm hc).symm
        · have hgt : symDist q m < symDist q r :=
            lt_of_le_of_ne (le_of_not_lt hc) hmr
          rw [if_neg hc]
          exact (take_insAsc_of_gt q s (k' + 1) m r hs hk hm hgt).symm

/-- The streamed heap fold equals the truncated sort, generalized over
an already-processed prefix. -/
theorem heapFold_eq (q : List ℚ) (k : Nat) :
    ∀ (l p : List StoredSymbol),
      ((p ++ l).Pairwise fun a b => symDist q a ≠ symDist q b) →
      l.foldl (heapStep q k) ((sortAsc q p).take k) =
        (sortAsc q (p ++ l)).take k := by
  intro l
  induction l with
  | nil =>
      intro p _
      simp
  | cons r rest ih =>
      intro p h
      have hstep : heapStep q k ((sortAsc q p).take k) r =
          (insAsc q r (sortAsc q p)).take k := by
        apply heapStep_take q k (sortAsc q p) r (sortAsc_sorted q p)
        intro a ha
        have hap : a ∈ p := (sortAsc_perm q p).mem_iff.mp ha
        exact (List.pairwise_append.mp h).2.2 a hap r (List.mem_cons_self _ _)
      rw [List.foldl_cons, hstep, ← sortAsc_append_singleton]
      have h' : (((p ++ [r]) ++ rest).Pairwise
          fun a b => symDist q a ≠ symDist q b) := by
        simpa [List.append_assoc] using h
      have := ih (p ++ [r]) h'
      simpa [List.append_assoc] using this

/-- Claim C8: For every query embedding, filter predicate, row set and
`top_k` such that the filter-matching rows have pairwise-distinct
squared distances `d = Σ(q_i − e_i)²` to the query (so that "the top_k
rows with the smallest distance, ascending" is well defined), the
spec's bounded max-heap streamed scan returns exactly the row list of
the store's SQL implementation (`ORDER BY vec_distance_l2 ASC LIMIT
top_k` over the filtered rows). -/
theorem heap_scan_refines_sql_scan (q : List ℚ) (keep : StoredSymbol → Bool)
    (rows : List StoredSymbol) (topK : Nat)
    (hdist : (rows.filter keep).Pairwise
      fun a b => l2sq q a.embedding ≠ l2sq q b.embedding) :
    heapScan q keep rows topK = searchRows q keep rows topK := by
  unfold heapScan searchRows
  have h := heapFold_eq q topK (rows.filter keep) [] (by simpa using hdist)
  rw [show sortAsc q ([] : List StoredSymbol) = [] from rfl, List.take_nil] at h
  simpa using h

/-- Concrete rows for the C8 witness, with embeddings `[3]` and `[7]`
(distances `9` and `49` to the query `[0]`, distinct from `symA`'s
distance `1`). -/
def symB : StoredSymbol :=
  ⟨[3], "b.go", "TB", "function", "go", 2, none, none, "token bucket"⟩

def symC : StoredSymbol :=
  ⟨[7], "c.go", "QQ", "method", "go", 3, none, none, "queue"⟩

/-- Witness for C8: three rows with pairwise-distinct distances to the
query `[0]`, scanned with `top_k = 2` and a trivial filter. -/
theorem heap_scan_refines_sql_scan_witness :
    (([symC, symA, symB].filter fun _ => true).Pairwise
      fun a b => l2sq [0] a.embedding ≠ l2sq [0] b.embedding) ∧
    heapScan [0] (fun _ => true) [symC, symA, symB] 2 =
      searchRows [0] (fun _ => true) [symC, symA, symB] 2 := by
  have hd : (([symC, symA, symB].filter fun _ => true).Pairwise
      fun a b => l2sq [0] a.embedding ≠ l2sq [0] b.embedding) := by
    simp only [List.filter_cons, List.filter_nil, if_pos rfl]
    refine List.Pairwise.cons ?_ (List.Pairwise.cons ?_ (List.Pairwise.cons ?_ ?_))
    · intro b hb
      rcases List.mem_cons.mp hb with rfl | hb
      · norm_num [l2sq, symC, symA]
      · rcases List.mem_singleton.mp hb with rfl
        norm_num [l2sq, symC, symB]
    · intro b hb
      rcases List.mem_singleton.mp hb with rfl
      norm_num [l2sq, symA, symB]
    · intro b hb
      simp at hb
    · exact List.Pairwise.nil
  exact ⟨hd, heap_scan_refines_sql_scan [0] (fun _ => true) [symC, symA, symB] 2 hd⟩

end SemSearch
